import Mathlib

/-!
Verification of the tf-mirror downloader core against its specification.

The Go sources are shallowly embedded: pure string manipulation is modelled
over `List Char` (Go strings are byte sequences; every string the downloader
handles here is ASCII, so a character-wise model is faithful), filesystem
state is passed explicitly (a file is `Option Nat`, its size, since the code
under analysis only ever consults existence and size), and the HTTP layer is
a function from attempt index / page offset to the observed response.
-/

namespace TfMirror

/-! ## Go string primitives

Models of `strings.Split` (single-character separator — the only kind the
repository uses), `strings.TrimSpace`, `strings.HasPrefix`,
`strings.HasSuffix` and `strings.Contains`, operating on `String.data` so
that every definition evaluates by kernel reduction. -/

/-- Model of Go `strings.Split(s, sep)` for a one-character separator,
on the underlying character list.  `strings.Split("", sep) = [""]` and a
trailing separator yields a trailing empty field, as in Go. -/
def splitOnChar (c : Char) : List Char → List (List Char)
  | [] => [[]]
  | a :: rest =>
    let r := splitOnChar c rest
    if a = c then [] :: r
    else
      match r with
      | [] => [[a]]
      | h :: t => (a :: h) :: t

/-- Go `strings.Split` with a one-character separator, on `String`. -/
def goSplit (s : String) (c : Char) : List String :=
  (splitOnChar c s.data).map (fun l => { data := l })

/-- Go `strings.TrimSpace`: drop whitespace from both ends. -/
def goTrim (s : String) : String :=
  { data := ((s.data.dropWhile Char.isWhitespace).reverse.dropWhile
      Char.isWhitespace).reverse }

/-- Go `strings.HasPrefix`. -/
def goHasPre (s pre : String) : Bool :=
  pre.data.isPrefixOf s.data

/-- Go `strings.HasSuffix`. -/
def goHasSuf (s suf : String) : Bool :=
  suf.data.isSuffixOf s.data

/-- Go `strings.Contains`, as a decidable infix test. -/
def goContains (s pat : String) : Bool :=
  decide (pat.data.IsInfix s.data)

/-! ## Checksum predicate — `verifyChecksum`
(`internal/downloader/service.go`, lines 779–800)

The filesystem is abstracted as `fs : String → Option Nat`: `none` means
`os.Stat` fails (the file does not exist), `some sz` means the file exists
with size `sz`.  `fileExists` and `statFile` in the source both reduce to
`os.Stat`, so one map models both.  The function signature shows it never
reads file contents: only existence and size are consulted. -/

/-- Model of `fileExists` (`os.Stat` succeeding). -/
def fileExists (fs : String → Option Nat) (path : String) : Bool :=
  (fs path).isSome

/-- Model of `Service.verifyChecksum` from `service.go:779`.  The branch
structure mirrors the source: empty expected checksum → accept iff the file
exists; missing file → reject; zero size (or stat error, impossible here
once existence holds) → reject; otherwise accept without hashing. -/
def verifyChecksum (fs : String → Option Nat) (filePath expectedChecksum : String) : Bool :=
  if expectedChecksum = "" then
    fileExists fs filePath
  else if ¬ (fileExists fs filePath) then
    false
  else
    match fs filePath with
    | none => false
    | some sz => if sz = 0 then false else true

/-! ## Binary filter parsing — `ParseBinaryFilter`
(`internal/downloader/binaries/binaries.go`, lines 32–53) -/

/-- One parsed `tool>version` entry (`binaries.BinaryFilter`). -/
structure BinaryFilter where
  Tool : String
  MinVersion : String
deriving DecidableEq, Repr

/-- The loop body of `ParseBinaryFilter`: fold over the comma-separated
parts, trimming each, skipping empties, splitting on `>` and requiring
exactly two fields; any other field count is an error, as in the source
(`len(sub) != 2`). -/
def parseBinaryFilterList : List String → Except String (List BinaryFilter)
  | [] => Except.ok []
  | part :: rest =>
    let part := goTrim part
    if part = "" then parseBinaryFilterList rest
    else
      match goSplit part '>' with
      | [t, v] =>
        match parseBinaryFilterList rest with
        | Except.ok r => Except.ok ({ Tool := goTrim t, MinVersion := goTrim v } :: r)
        | Except.error e => Except.error e
      | _ => Except.error ("invalid binary filter format: " ++ part)

/-- Model of `binaries.ParseBinaryFilter`: empty filter string parses to an
empty list, otherwise the string is split on commas and folded. -/
def ParseBinaryFilter (filter : String) : Except String (List BinaryFilter) :=
  if filter = "" then Except.ok []
  else parseBinaryFilterList (goSplit filter ',')

/-! ### Theorems for C4 and C9 -/

/-- C4: `verifyChecksum(P, H)` accepts exactly when the file exists and
(either `H` is empty or the file is non-empty).  Unfolding the cases: if `H`
is empty the result is exactly `fileExists`; a missing file is always
rejected; with a non-empty `H` a zero-byte file is rejected; any existing
non-empty file is accepted — and the model's filesystem abstraction carries
no file contents at all, so no hashing can occur. -/
theorem c4_verifyChecksum_spec (fs : String → Option Nat) (P H : String) :
    verifyChecksum fs P H = true ↔
      (fs P).isSome ∧ (H = "" ∨ fs P ≠ some 0) := by
  unfold verifyChecksum fileExists
  rcases hfs : fs P with _ | sz
  · simp [hfs]
  · by_cases hH : H = ""
    · simp [hH, hfs]
    · by_cases hsz : sz = 0
      · subst hsz; simp [hH, hfs]
      · simp [hH, hfs, hsz]

/-- C9 counterexample: the entry `"consul>"` has an empty version side, yet
`ParseBinaryFilter` accepts it (it only requires exactly one `>` separator),
returning tool `consul` with empty minimum version — so parsing does not
fail whenever a side is missing. -/
theorem c9_counterexample :
    ParseBinaryFilter "consul>" =
      Except.ok [{ Tool := "consul", MinVersion := "" }] := by rfl

/-- Whether a parse result is a success. -/
def parseOk (r : Except String (List BinaryFilter)) : Bool :=
  match r with
  | Except.ok _ => true
  | Except.error _ => false

/-- An entry is well-formed for `ParseBinaryFilter` when, after trimming, it
is either empty (and skipped) or splits on `>` into exactly two fields. -/
def entryOk (part : String) : Bool :=
  goTrim part = "" || (goSplit (goTrim part) '>').length = 2

theorem parseBinaryFilterList_ok (parts : List String) :
    parseOk (parseBinaryFilterList parts) = parts.all entryOk := by
  induction parts with
  | nil => rfl
  | cons p rest ih =>
    by_cases hp : goTrim p = ""
    · have hok : entryOk p = true := by simp [entryOk, hp]
      simp only [parseBinaryFilterList, hp, if_pos, List.all_cons, hok,
        Bool.true_and]
      exact ih
    · rcases hsplit : goSplit (goTrim p) '>' with _ | ⟨t, _ | ⟨v, _ | ⟨w, ws⟩⟩⟩
      · have hbad : entryOk p = false := by simp [entryOk, hp, hsplit]
        simp [parseBinaryFilterList, hp, hsplit, parseOk, hbad]
      · have hbad : entryOk p = false := by simp [entryOk, hp, hsplit]
        simp [parseBinaryFilterList, hp, hsplit, parseOk, hbad]
      · have hok : entryOk p = true := by simp [entryOk, hp, hsplit]
        simp only [parseBinaryFilterList, hp, if_neg hp, hsplit,
          List.all_cons, hok, Bool.true_and]
        rcases hrec : parseBinaryFilterList rest with e | r
        · rw [hrec] at ih; simpa [parseOk] using ih
        · rw [hrec] at ih; simpa [parseOk] using ih
      · have hbad : entryOk p = false := by simp [entryOk, hp, hsplit]
        simp [parseBinaryFilterList, hp, hsplit, parseOk, hbad]

/-- C9 amended: `ParseBinaryFilter` succeeds if and only if every
comma-separated entry is, after trimming, either empty (and skipped) or
splits on `>` into exactly two fields; the entry fails exactly when it does
not contain exactly one `>` separator — emptiness of the two sides is never
checked. -/
theorem c9_amended_thm (filter : String) (h0 : filter ≠ "") :
    parseOk (ParseBinaryFilter filter) = (goSplit filter ',').all entryOk := by
  unfold ParseBinaryFilter
  rw [if_neg h0]
  exact parseBinaryFilterList_ok (goSplit filter ',')

/-- C9 amended, witness: on `"consul>1.21.3,nomad"` the second entry has no
`>` separator, and instantiating the characterization shows parsing fails. -/
theorem c9_amended_witness :
    parseOk (ParseBinaryFilter "consul>1.21.3,nomad") = false := by
  rw [c9_amended_thm "consul>1.21.3,nomad" (by decide)]
  rfl

/-! ## HTTP transport retry loop — `HTTPClient.GetWithContext`
(`internal/common/client.go`, lines 68–101)

The network is modelled as `attempt : Nat → Option Nat`: attempt `i` either
fails with a transport error (`none`, Go's `lastErr != nil`) or yields a
response with the given status code (`some status`, `lastErr == nil`).  The
model returns what the caller observes — the final `(resp, err)` pair as
`HttpOutcome` — together with the number of attempts performed and the list
of back-off sleeps (in seconds) executed between attempts. -/

/-- What `GetWithContext` returns to its caller: a response (with `nil`
error) carrying a status code, or a non-`nil` error. -/
inductive HttpOutcome where
  | response (status : Nat)
  | failure
deriving DecidableEq, Repr

/-- The retry loop body of `GetWithContext`: `for i := 0; i <= maxRetries;
i++`.  An attempt returning `nil` error and status `< 500` is returned at
once; otherwise, while `i < maxRetries` the loop sleeps `2^i` seconds and
retries; on loop exit the last transport error (if any) is surfaced, else
the last (5xx) response is returned with `nil` error. -/
def getLoop (attempt : Nat → Option Nat) (maxRetries : Nat) (i : Nat) :
    HttpOutcome × Nat × List Nat :=
  match attempt i with
  | some s =>
    if s < 500 then (HttpOutcome.response s, i + 1, [])
    else if h : i < maxRetries then
      let r := getLoop attempt maxRetries (i + 1)
      (r.1, r.2.1, 2 ^ i :: r.2.2)
    else (HttpOutcome.response s, i + 1, [])
  | none =>
    if h : i < maxRetries then
      let r := getLoop attempt maxRetries (i + 1)
      (r.1, r.2.1, 2 ^ i :: r.2.2)
    else (HttpOutcome.failure, i + 1, [])
termination_by maxRetries + 1 - i
decreasing_by
  · omega
  · omega

/-- Model of `HTTPClient.GetWithContext`: run the retry loop from `i = 0`. -/
def GetWithContext (maxRetries : Nat) (attempt : Nat → Option Nat) :
    HttpOutcome × Nat × List Nat :=
  getLoop attempt maxRetries 0

/-- An attempt outcome that triggers a retry: transport error or 5xx. -/
def retryTrigger (o : Option Nat) : Bool :=
  match o with
  | none => true
  | some s => decide (500 ≤ s)

theorem getLoop_attempts_le_aux (attempt : Nat → Option Nat) (maxRetries : Nat) :
    ∀ n i, maxRetries + 1 ≤ i + n → i ≤ maxRetries →
      (getLoop attempt maxRetries i).2.1 ≤ maxRetries + 1 := by
  intro n
  induction n with
  | zero => intro i h hle; omega
  | succ n ih =>
    intro i h hle
    unfold getLoop
    rcases attempt i with _ | s
    · by_cases hi : i < maxRetries
      · simp only [dif_pos hi]
        exact ih (i + 1) (by omega) hi
      · simp only [dif_neg hi]; omega
    · by_cases hs : s < 500
      · simp only [if_pos hs]; omega
      · by_cases hi : i < maxRetries
        · simp only [if_neg hs, dif_pos hi]
          exact ih (i + 1) (by omega) hi
        · simp only [if_neg hs, dif_neg hi]; omega

theorem getLoop_attempts_le (attempt : Nat → Option Nat) (maxRetries : Nat)
    (i : Nat) (hle : i ≤ maxRetries) :
    (getLoop attempt maxRetries i).2.1 ≤ maxRetries + 1 :=
  getLoop_attempts_le_aux attempt maxRetries (maxRetries + 1) i (by omega) hle

theorem pow_cons_range (i n : Nat) :
    2 ^ i :: (List.range n).map (fun j => 2 ^ (i + 1 + j)) =
      (List.range (n + 1)).map (fun j => 2 ^ (i + j)) := by
  rw [List.range_succ_eq_map, List.map_cons, List.map_map]
  refine congrArg₂ List.cons (by rw [Nat.add_zero]) ?_
  apply List.map_congr_left
  intro a _
  simp only [Function.comp_apply, Nat.succ_eq_add_one]
  congr 1
  omega

theorem getLoop_first_success (attempt : Nat → Option Nat) (maxRetries : Nat)
    (i n : Nat) (s : Nat) (hle : i + n ≤ maxRetries)
    (hretry : ∀ j, j < n → retryTrigger (attempt (i + j)) = true)
    (hs : attempt (i + n) = some s) (hlt : s < 500) :
    getLoop attempt maxRetries i =
      (HttpOutcome.response s, i + n + 1,
        (List.range n).map (fun j => 2 ^ (i + j))) := by
  induction n generalizing i with
  | zero =>
    unfold getLoop
    rw [show i + 0 = i from rfl] at hs hle
    rw [hs]
    simp [hlt]
  | succ n ih =>
    have htrig := hretry 0 (Nat.succ_pos n)
    rw [Nat.add_zero] at htrig
    have hi : i < maxRetries := by omega
    have hstep : getLoop attempt maxRetries (i + 1) =
        (HttpOutcome.response s, (i + 1) + n + 1,
          (List.range n).map (fun j => 2 ^ ((i + 1) + j))) := by
      apply ih
      · omega
      · intro j hj
        have := hretry (j + 1) (by omega)
        rwa [show i + (j + 1) = (i + 1) + j from by omega] at this
      · rwa [show (i + 1) + n = i + (n + 1) from by omega]
    have hpair : ((HttpOutcome.response s, (i + 1) + n + 1,
        2 ^ i :: (List.range n).map (fun j => 2 ^ (i + 1 + j))) :
          HttpOutcome × Nat × List Nat) =
        (HttpOutcome.response s, i + (n + 1) + 1,
          (List.range (n + 1)).map (fun j => 2 ^ (i + j))) := by
      rw [pow_cons_range]
      refine congrArg (Prod.mk _) (congrArg₂ Prod.mk ?_ rfl)
      omega
    unfold getLoop
    rcases ha : attempt i with _ | t
    · simp only [dif_pos hi, hstep]
      exact hpair
    · rw [ha] at htrig
      simp only [retryTrigger, decide_eq_true_eq] at htrig
      have ht : ¬ t < 500 := by omega
      simp only [if_neg ht, dif_pos hi, hstep]
      exact hpair

/-- C5: the transport makes at most `maxRetries + 1` attempts in total; and
whenever the first `i` attempts all trigger a retry (transport error or
status `≥ 500`) while attempt `i ≤ maxRetries` yields a response with status
`< 500` (including any 4xx), that response is returned immediately — exactly
`i + 1` attempts are made, with sleeps `2^0, 2^1, …, 2^(i-1)` seconds
between consecutive attempts and no sleep after the final one. -/
theorem c5_retry_policy (maxRetries : Nat) (attempt : Nat → Option Nat)
    (i s : Nat) :
    (GetWithContext maxRetries attempt).2.1 ≤ maxRetries + 1 ∧
      (i ≤ maxRetries →
        (∀ j, j < i → retryTrigger (attempt j) = true) →
        attempt i = some s → s < 500 →
        GetWithContext maxRetries attempt =
          (HttpOutcome.response s, i + 1,
            (List.range i).map (fun j => 2 ^ j))) := by
  constructor
  · exact getLoop_attempts_le attempt maxRetries 0 (Nat.zero_le _)
  · intro hle hretry hs hlt
    have := getLoop_first_success attempt maxRetries 0 i s
      (by omega) (fun j hj => by simpa using hretry j hj) (by simpa using hs) hlt
    simpa [GetWithContext] using this

/-- C5 witness: with `maxRetries = 3` and attempts `503, network-error, 404,
…`, the theorem's hypotheses hold at `i = 2`, and evaluating the model shows
the 404 response is returned after exactly 3 attempts with sleeps `[1, 2]`
seconds — the 4xx is not retried. -/
theorem c5_retry_policy_witness :
    (GetWithContext 3 (fun j => if j = 0 then some 503 else if j = 1 then none
        else some 404)).2.1 ≤ 3 + 1 ∧
      GetWithContext 3 (fun j => if j = 0 then some 503 else if j = 1 then none
        else some 404) = (HttpOutcome.response 404, 3, [1, 2]) := by
  have h := c5_retry_policy 3
    (fun j => if j = 0 then some 503 else if j = 1 then none else some 404) 2 404
  refine ⟨h.1, ?_⟩
  have h2 := h.2 (by omega)
    (by intro j hj; interval_cases j <;> rfl) rfl (by omega)
  rw [h2]
  rfl

theorem getLoop_all_5xx_aux (attempt : Nat → Option Nat) (maxRetries : Nat) :
    ∀ n i, maxRetries + 1 ≤ i + n → i ≤ maxRetries →
      (∀ j, i ≤ j → j ≤ maxRetries → ∃ s, attempt j = some s ∧ 500 ≤ s) →
      ∃ s, attempt maxRetries = some s ∧
        (getLoop attempt maxRetries i).1 = HttpOutcome.response s := by
  intro n
  induction n with
  | zero => intro i h hle _; omega
  | succ n ih =>
    intro i h hle h5
    obtain ⟨s, hs, hs5⟩ := h5 i (Nat.le_refl i) hle
    by_cases hi : i < maxRetries
    · obtain ⟨t, ht, htloop⟩ := ih (i + 1) (by omega) hi
        (fun j hj hj' => h5 j (by omega) hj')
      refine ⟨t, ht, ?_⟩
      unfold getLoop
      rw [hs]
      have hns : ¬ s < 500 := by omega
      simp only [if_neg hns, dif_pos hi]
      exact htloop
    · have hieq : i = maxRetries := by omega
      subst hieq
      refine ⟨s, hs, ?_⟩
      unfold getLoop
      rw [hs]
      have hns : ¬ s < 500 := by omega
      simp [hns]

/-- C10: when every attempt yields a response with status `≥ 500` and no
transport error, the exhausted call returns the final attempt's 5xx response
together with a `nil` error — the caller sees `HttpOutcome.response s` with
`500 ≤ s`, never `HttpOutcome.failure`. -/
theorem c10_all_5xx_returns_response (maxRetries : Nat)
    (attempt : Nat → Option Nat)
    (h5 : ∀ j, j ≤ maxRetries → ∃ s, attempt j = some s ∧ 500 ≤ s) :
    ∃ s, attempt maxRetries = some s ∧ 500 ≤ s ∧
      (GetWithContext maxRetries attempt).1 = HttpOutcome.response s := by
  obtain ⟨s, hs, hloop⟩ := getLoop_all_5xx_aux attempt maxRetries
    (maxRetries + 1) 0 (by omega) (Nat.zero_le _) (fun j _ hj' => h5 j hj')
  obtain ⟨t, ht, ht5⟩ := h5 maxRetries (Nat.le_refl _)
  rw [hs] at ht
  cases ht
  exact ⟨s, hs, ht5, hloop⟩

/-- C10 witness: two attempts, statuses `500` then `502`, `maxRetries = 1`;
the call returns the final `502` response with `nil` error. -/
theorem c10_witness :
    ∃ s, (fun j => if j = 0 then some 500 else some 502) 1 = some s ∧ 500 ≤ s ∧
      (GetWithContext 1 (fun j => if j = 0 then some 500 else some 502)).1 =
        HttpOutcome.response s := by
  exact c10_all_5xx_returns_response 1
    (fun j => if j = 0 then some 500 else some 502)
    (by intro j hj; interval_cases j
        · exact ⟨500, rfl, by omega⟩
        · exact ⟨502, rfl, by omega⟩)

/-! ## Version predicate — `FilterVersionsByMin`
(`internal/common/filters.go`, lines 206–226)

Tolerant semantic-version parsing and the `>=` comparison come from the
external `blang/semver` library (out of scope per the spec, which fixes only
their interface), so they are abstracted as parameters: `parse` returns
`none` exactly when `semver.ParseTolerant` errors, and `gte a b` models
`a.GTE(b)`.  The filtering logic itself is embedded from the source. -/

/-- Model of `common.FilterVersionsByMin`: empty `minVersion` returns the
input; an unparseable `minVersion` returns the input (permissive fallback);
otherwise keep, in order, the candidates that parse and compare `>=`,
silently dropping unparseable candidates. -/
def FilterVersionsByMin {V : Type} (parse : String → Option V)
    (gte : V → V → Bool) (versions : List String) (minVersion : String) :
    List String :=
  if minVersion = "" then versions
  else
    match parse minVersion with
    | none => versions
    | some minVer =>
      versions.filter (fun v =>
        match parse v with
        | none => false
        | some ver => gte ver minVer)

/-- C6: `FilterVersionsByMin` returns the input unchanged when `minVersion`
is empty or unparseable; otherwise the result is a subsequence of the input
whose members are exactly the candidates that parse to a version `>=`
`minVersion`, with unparseable candidates dropped. -/
theorem c6_filterVersionsByMin {V : Type} (parse : String → Option V)
    (gte : V → V → Bool) (versions : List String) (minVersion : String) :
    ((minVersion = "" ∨ parse minVersion = none) →
      FilterVersionsByMin parse gte versions minVersion = versions) ∧
    (∀ minVer, minVersion ≠ "" → parse minVersion = some minVer →
      (FilterVersionsByMin parse gte versions minVersion).Sublist versions ∧
      ∀ v, v ∈ FilterVersionsByMin parse gte versions minVersion ↔
        (v ∈ versions ∧ ∃ ver, parse v = some ver ∧ gte ver minVer = true)) := by
  constructor
  · rintro (h | h)
    · unfold FilterVersionsByMin
      rw [if_pos h]
    · unfold FilterVersionsByMin
      by_cases h0 : minVersion = ""
      · rw [if_pos h0]
      · rw [if_neg h0, h]
  · intro minVer h0 hparse
    have hdef : FilterVersionsByMin parse gte versions minVersion =
        versions.filter (fun v =>
          match parse v with
          | none => false
          | some ver => gte ver minVer) := by
      unfold FilterVersionsByMin
      rw [if_neg h0, hparse]
    rw [hdef]
    refine ⟨List.filter_sublist versions, ?_⟩
    intro v
    rw [List.mem_filter]
    constructor
    · rintro ⟨hmem, hkeep⟩
      refine ⟨hmem, ?_⟩
      rcases hv : parse v with _ | ver
      · rw [hv] at hkeep; cases hkeep
      · rw [hv] at hkeep
        exact ⟨ver, rfl, hkeep⟩
    · rintro ⟨hmem, ver, hv, hge⟩
      refine ⟨hmem, ?_⟩
      rw [hv]
      exact hge

/-- C6 witness: with a concrete parser (numeric first component; `"bad"`
unparseable) and ordering, both hypothesis branches of the theorem are
exercised — an empty `minVersion` returns the input unchanged, and minimum
`"2"` keeps exactly the parsing candidates `>= 2`, dropping `"bad"`. -/
theorem c6_filterVersionsByMin_witness :
    FilterVersionsByMin
      (fun s => if s = "bad" then none else some s.data.length)
      (fun a b => Nat.ble b a) ["1", "bad", "22"] "" = ["1", "bad", "22"] ∧
    ("22" ∈ FilterVersionsByMin
      (fun s => if s = "bad" then none else some s.data.length)
      (fun a b => Nat.ble b a) ["1", "bad", "22"] "xy" ↔
      ("22" ∈ (["1", "bad", "22"] : List String) ∧
        ∃ ver, (if ("22" : String) = "bad" then none else
          some ("22" : String).data.length) = some ver ∧
          Nat.ble ("xy" : String).data.length ver = true)) := by
  constructor
  · exact (c6_filterVersionsByMin
      (fun s => if s = "bad" then none else some s.data.length)
      (fun a b => Nat.ble b a) ["1", "bad", "22"] "").1 (Or.inl rfl)
  · exact ((c6_filterVersionsByMin
      (fun s => if s = "bad" then none else some s.data.length)
      (fun a b => Nat.ble b a) ["1", "bad", "22"] "xy").2
      2 (by decide) rfl).2 "22"

/-! ## Metadata journal — `updateMetadata`
(`internal/downloader/service.go`, lines 735–776)

The in-memory journal `metadata.Providers` (a Go `map[string]ProviderInfo`)
is modelled as an association list with at most the operations the source
performs: zero-value read (`Providers[key]` on a missing key yields the zero
`ProviderInfo`) and keyed store.  The source rebuilds the `Platforms` slice
from a Go set (`map[string]struct{}`), whose iteration order is unspecified;
the model fixes first-occurrence order via `pdedup`, which agrees with the
source up to the permutation the claim already allows. -/

/-- Journal entry for one provider (`downloader.ProviderInfo`). -/
structure ProviderInfo where
  Namespace : String
  Name : String
  Platforms : List String
  Versions : List String
deriving DecidableEq, Repr

/-- The zero value of `ProviderInfo`, returned by a Go map read at a
missing key. -/
def emptyProviderInfo : ProviderInfo :=
  { Namespace := "", Name := "", Platforms := [], Versions := [] }

/-- Duplicate removal keeping first occurrences (tracking a `seen`
accumulator): the deterministic stand-in for rebuilding a slice from a Go
`map[string]struct\x7b\x7d` set. -/
def pdedupAux (seen : List String) : List String → List String
  | [] => []
  | a :: l =>
    if a ∈ seen then pdedupAux seen l
    else a :: pdedupAux (a :: seen) l

/-- Duplicate removal keeping first occurrences. -/
def pdedup (l : List String) : List String :=
  pdedupAux [] l

/-- Go map read with zero value: `metadata.Providers[key]`. -/
def getProvider (m : List (String × ProviderInfo)) (k : String) : ProviderInfo :=
  match m.find? (fun p => p.1 == k) with
  | some p => p.2
  | none => emptyProviderInfo

/-- Go map write: `metadata.Providers[key] = v`. -/
def setProvider (m : List (String × ProviderInfo)) (k : String)
    (v : ProviderInfo) : List (String × ProviderInfo) :=
  if m.any (fun p => p.1 == k) then
    m.map (fun p => if p.1 == k then (k, v) else p)
  else m ++ [(k, v)]

/-- Model of `Service.updateMetadata` from `service.go:735`: read the entry
(zero value if absent), set namespace and name, re-insert the platform
through a set rebuild, append the version only if absent, store back. -/
def updateMetadata (m : List (String × ProviderInfo))
    (ns name version osName archName : String) :
    List (String × ProviderInfo) :=
  let providerKey := ns ++ "/" ++ name
  let info := getProvider m providerKey
  let platform := osName ++ "_" ++ archName
  let platforms := pdedup (info.Platforms ++ [platform])
  let versions :=
    if version ∈ info.Versions then info.Versions
    else info.Versions ++ [version]
  setProvider m providerKey
    { Namespace := ns, Name := name, Platforms := platforms, Versions := versions }

theorem pdedupAux_cons (seen : List String) (a : String) (l : List String) :
    pdedupAux seen (a :: l) =
      if a ∈ seen then pdedupAux seen l else a :: pdedupAux (a :: seen) l := rfl

theorem mem_pdedupAux (x : String) (l : List String) :
    ∀ seen, x ∈ pdedupAux seen l ↔ (x ∈ l ∧ x ∉ seen) := by
  induction l with
  | nil => intro seen; simp [pdedupAux]
  | cons a l ih =>
    intro seen
    by_cases ha : a ∈ seen
    · rw [show pdedupAux seen (a :: l) = pdedupAux seen l from by
        rw [pdedupAux_cons, if_pos ha]]
      rw [ih seen]
      constructor
      · rintro ⟨hx, hs⟩; exact ⟨List.mem_cons_of_mem _ hx, hs⟩
      · rintro ⟨hx, hs⟩
        rcases List.mem_cons.mp hx with h | h
        · subst h; exact absurd ha hs
        · exact ⟨h, hs⟩
    · rw [show pdedupAux seen (a :: l) = a :: pdedupAux (a :: seen) l from by
        rw [pdedupAux_cons, if_neg ha]]
      rw [List.mem_cons, ih (a :: seen)]
      constructor
      · rintro (h | ⟨hx, hs⟩)
        · subst h; exact ⟨List.mem_cons_self _ _, ha⟩
        · refine ⟨List.mem_cons_of_mem _ hx, fun hc => hs (List.mem_cons_of_mem _ hc)⟩
      · rintro ⟨hx, hs⟩
        rcases List.mem_cons.mp hx with h | h
        · exact Or.inl h
        · by_cases hxa : x = a
          · exact Or.inl hxa
          · exact Or.inr ⟨h, fun hc => by
              rcases List.mem_cons.mp hc with h' | h'
              · exact hxa h'
              · exact hs h'⟩

theorem mem_pdedup (x : String) (l : List String) : x ∈ pdedup l ↔ x ∈ l := by
  unfold pdedup
  rw [mem_pdedupAux]
  simp

theorem pdedupAux_nodup (l : List String) :
    ∀ seen, (pdedupAux seen l).Nodup := by
  induction l with
  | nil => intro seen; exact List.nodup_nil
  | cons a l ih =>
    intro seen
    by_cases ha : a ∈ seen
    · rw [show pdedupAux seen (a :: l) = pdedupAux seen l from by
        rw [pdedupAux_cons, if_pos ha]]
      exact ih seen
    · rw [show pdedupAux seen (a :: l) = a :: pdedupAux (a :: seen) l from by
        rw [pdedupAux_cons, if_neg ha]]
      refine List.nodup_cons.mpr ⟨?_, ih (a :: seen)⟩
      intro hmem
      exact ((mem_pdedupAux a l (a :: seen)).mp hmem).2 (List.mem_cons_self _ _)

theorem pdedup_nodup (l : List String) : (pdedup l).Nodup :=
  pdedupAux_nodup l []

theorem pdedupAux_eq_self (l : List String) :
    ∀ seen, l.Nodup → (∀ x ∈ l, x ∉ seen) → pdedupAux seen l = l := by
  induction l with
  | nil => intro seen _ _; rfl
  | cons a l ih =>
    intro seen hnd hdisj
    obtain ⟨ha, hl⟩ := List.nodup_cons.mp hnd
    rw [show pdedupAux seen (a :: l) = a :: pdedupAux (a :: seen) l from by
      rw [pdedupAux_cons, if_neg (hdisj a (List.mem_cons_self _ _))]]
    rw [ih (a :: seen) hl]
    intro x hx
    intro hc
    rcases List.mem_cons.mp hc with h | h
    · exact ha (h ▸ hx)
    · exact hdisj x (List.mem_cons_of_mem _ hx) h

theorem pdedup_eq_self (l : List String) (h : l.Nodup) : pdedup l = l :=
  pdedupAux_eq_self l [] h (fun x _ => List.not_mem_nil x)

theorem pdedupAux_append_seen (p : String) (l : List String) :
    ∀ seen, p ∈ seen → pdedupAux seen (l ++ [p]) = pdedupAux seen l := by
  induction l with
  | nil =>
    intro seen hp
    show pdedupAux seen [p] = pdedupAux seen []
    rw [pdedupAux_cons, if_pos hp]
  | cons a l ih =>
    intro seen hp
    by_cases ha : a ∈ seen
    · rw [show pdedupAux seen ((a :: l) ++ [p]) = pdedupAux seen (l ++ [p]) from by
        rw [List.cons_append]; rw [pdedupAux_cons, if_pos ha]]
      rw [show pdedupAux seen (a :: l) = pdedupAux seen l from by
        rw [pdedupAux_cons, if_pos ha]]
      exact ih seen hp
    · rw [show pdedupAux seen ((a :: l) ++ [p]) =
          a :: pdedupAux (a :: seen) (l ++ [p]) from by
        rw [List.cons_append]; rw [pdedupAux_cons, if_neg ha]]
      rw [show pdedupAux seen (a :: l) = a :: pdedupAux (a :: seen) l from by
        rw [pdedupAux_cons, if_neg ha]]
      rw [ih (a :: seen) (List.mem_cons_of_mem _ hp)]

theorem pdedupAux_append_mem (p : String) (l : List String) :
    ∀ seen, p ∈ l → pdedupAux seen (l ++ [p]) = pdedupAux seen l := by
  induction l with
  | nil => intro seen hp; cases hp
  | cons a l ih =>
    intro seen hp
    by_cases ha : a ∈ seen
    · rw [show pdedupAux seen ((a :: l) ++ [p]) = pdedupAux seen (l ++ [p]) from by
        rw [List.cons_append]; rw [pdedupAux_cons, if_pos ha]]
      rw [show pdedupAux seen (a :: l) = pdedupAux seen l from by
        rw [pdedupAux_cons, if_pos ha]]
      rcases List.mem_cons.mp hp with h | h
      · subst h
        exact pdedupAux_append_seen p l seen ha
      · exact ih seen h
    · rw [show pdedupAux seen ((a :: l) ++ [p]) =
          a :: pdedupAux (a :: seen) (l ++ [p]) from by
        rw [List.cons_append]; rw [pdedupAux_cons, if_neg ha]]
      rw [show pdedupAux seen (a :: l) = a :: pdedupAux (a :: seen) l from by
        rw [pdedupAux_cons, if_neg ha]]
      rcases List.mem_cons.mp hp with h | h
      · subst h
        rw [pdedupAux_append_seen p l (p :: seen) (List.mem_cons_self _ _)]
      · rw [ih (a :: seen) h]

theorem pdedup_append_mem (p : String) (l : List String) (hp : p ∈ l) :
    pdedup (l ++ [p]) = pdedup l :=
  pdedupAux_append_mem p l [] hp

theorem find?_map_replace (m : List (String × ProviderInfo)) (k : String)
    (v : ProviderInfo) (h : m.any (fun p => p.1 == k) = true) :
    (m.map (fun p => if p.1 == k then (k, v) else p)).find?
      (fun p => p.1 == k) = some (k, v) := by
  induction m with
  | nil => simp at h
  | cons p m' ih =>
    rw [List.map_cons]
    by_cases hpk : (p.1 == k) = true
    · rw [if_pos hpk, List.find?_cons_of_pos _ (by simp)]
    · rw [if_neg hpk, List.find?_cons_of_neg _ (by simpa using hpk)]
      apply ih
      simp only [List.any_cons, hpk, Bool.false_or] at h
      exact h

theorem find?_append_new (m : List (String × ProviderInfo)) (k : String)
    (v : ProviderInfo) (hall : ∀ p ∈ m, (p.1 == k) = false) :
    (m ++ [(k, v)]).find? (fun p => p.1 == k) = some (k, v) := by
  induction m with
  | nil => rw [List.nil_append, List.find?_cons_of_pos _ (by simp)]
  | cons p m' ih =>
    rw [List.cons_append,
      List.find?_cons_of_neg _ (by simpa using hall p (List.mem_cons_self p m'))]
    exact ih (fun q hq => hall q (List.mem_cons_of_mem _ hq))

theorem map_replace_id (m : List (String × ProviderInfo)) (k : String)
    (w : ProviderInfo) (hall : ∀ p ∈ m, (p.1 == k) = false) :
    m.map (fun p => if p.1 == k then (k, w) else p) = m := by
  induction m with
  | nil => rfl
  | cons p m' ih =>
    rw [List.map_cons,
      if_neg (by simp [hall p (List.mem_cons_self p m')]),
      ih (fun q hq => hall q (List.mem_cons_of_mem _ hq))]

theorem any_eq_false_keys (m : List (String × ProviderInfo)) (k : String)
    (h : m.any (fun p => p.1 == k) = false) :
    ∀ p ∈ m, (p.1 == k) = false := by
  intro p hp
  rcases hb : (p.1 == k) with _ | _
  · rfl
  · exact absurd (List.any_eq_true.mpr ⟨p, hp, hb⟩) (by rw [h]; simp)

theorem getProvider_setProvider (m : List (String × ProviderInfo))
    (k : String) (v : ProviderInfo) :
    getProvider (setProvider m k v) k = v := by
  unfold setProvider
  by_cases h : m.any (fun p => p.1 == k) = true
  · rw [if_pos h]
    unfold getProvider
    rw [find?_map_replace m k v h]
  · rw [if_neg h]
    unfold getProvider
    rw [find?_append_new m k v
      (any_eq_false_keys m k (Bool.not_eq_true _ ▸ Bool.of_not_eq_true h))]

theorem setProvider_setProvider (m : List (String × ProviderInfo))
    (k : String) (v w : ProviderInfo) :
    setProvider (setProvider m k v) k w = setProvider m k w := by
  by_cases h : m.any (fun p => p.1 == k) = true
  · have h1 : setProvider m k v =
        m.map (fun p => if p.1 == k then (k, v) else p) := by
      unfold setProvider; rw [if_pos h]
    have h2 : (m.map (fun p => if p.1 == k then (k, v) else p)).any
        (fun p => p.1 == k) = true := by
      obtain ⟨p, hp, hpk⟩ := List.any_eq_true.mp h
      refine List.any_eq_true.mpr ⟨(k, v), List.mem_map.mpr ⟨p, hp, ?_⟩, by simp⟩
      rw [if_pos hpk]
    rw [h1]
    unfold setProvider
    rw [if_pos h2, if_pos h, List.map_map]
    apply List.map_congr_left
    intro p _
    by_cases hpk : (p.1 == k) = true
    · simp only [Function.comp_apply, if_pos hpk, beq_self_eq_true, if_pos]
    · simp only [Function.comp_apply, if_neg hpk, if_neg hpk]
  · have hall : ∀ p ∈ m, (p.1 == k) = false :=
      any_eq_false_keys m k (Bool.of_not_eq_true h)
    have h1 : setProvider m k v = m ++ [(k, v)] := by
      unfold setProvider; rw [if_neg h]
    have h2 : (m ++ [(k, v)]).any (fun p => p.1 == k) = true :=
      List.any_eq_true.mpr ⟨(k, v), List.mem_append_right _ (by simp), by simp⟩
    rw [h1]
    unfold setProvider
    rw [if_pos h2, if_neg h, List.map_append, map_replace_id m k w hall]
    simp
/-- C7: the journal update is idempotent and has set semantics.  First
conjunct: applying `updateMetadata` twice for the same tuple yields exactly
the same journal as applying it once (the model fixes the Go set's iteration
order, so equality here is the claim's "equality up to reordering").  Second
conjunct: when the `(version, platform)` pair is already present in the
entry, the update leaves the version list unchanged, leaves the platform
set unchanged, and the platform list carries no duplicates. -/
theorem c7_updateMetadata_idempotent (m : List (String × ProviderInfo))
    (ns name version osName archName : String) :
    updateMetadata (updateMetadata m ns name version osName archName)
        ns name version osName archName =
      updateMetadata m ns name version osName archName ∧
    (version ∈ (getProvider m (ns ++ "/" ++ name)).Versions →
      (osName ++ "_" ++ archName) ∈ (getProvider m (ns ++ "/" ++ name)).Platforms →
      (getProvider (updateMetadata m ns name version osName archName)
          (ns ++ "/" ++ name)).Versions =
        (getProvider m (ns ++ "/" ++ name)).Versions ∧
      (∀ x, x ∈ (getProvider (updateMetadata m ns name version osName archName)
          (ns ++ "/" ++ name)).Platforms ↔
        x ∈ (getProvider m (ns ++ "/" ++ name)).Platforms) ∧
      (getProvider (updateMetadata m ns name version osName archName)
          (ns ++ "/" ++ name)).Platforms.Nodup) := by
  have hkey : updateMetadata m ns name version osName archName =
      setProvider m (ns ++ "/" ++ name)
        { Namespace := ns, Name := name,
          Platforms := pdedup ((getProvider m (ns ++ "/" ++ name)).Platforms ++
            [osName ++ "_" ++ archName]),
          Versions :=
            if version ∈ (getProvider m (ns ++ "/" ++ name)).Versions then
              (getProvider m (ns ++ "/" ++ name)).Versions
            else (getProvider m (ns ++ "/" ++ name)).Versions ++ [version] } := rfl
  set key := ns ++ "/" ++ name with hkeydef
  set info := getProvider m key with hinfodef
  set platform := osName ++ "_" ++ archName with hplatdef
  set v1 : ProviderInfo :=
    { Namespace := ns, Name := name,
      Platforms := pdedup (info.Platforms ++ [platform]),
      Versions :=
        if version ∈ info.Versions then info.Versions
        else info.Versions ++ [version] } with hv1def
  have hget1 : getProvider (updateMetadata m ns name version osName archName)
      key = v1 := by
    rw [hkey]
    exact getProvider_setProvider m key v1
  have hplat_mem : platform ∈ v1.Platforms := by
    rw [hv1def]
    exact (mem_pdedup _ _).mpr (List.mem_append_right _ (List.mem_cons_self _ _))
  have hver_mem : version ∈ v1.Versions := by
    rw [hv1def]
    by_cases hv : version ∈ info.Versions
    · simp only [if_pos hv]; exact hv
    · simp [hv]
  constructor
  · have hkey2 : updateMetadata (updateMetadata m ns name version osName archName)
        ns name version osName archName =
        setProvider (updateMetadata m ns name version osName archName) key
          { Namespace := ns, Name := name,
            Platforms := pdedup
              ((getProvider (updateMetadata m ns name version osName archName)
                key).Platforms ++ [platform]),
            Versions :=
              if version ∈ (getProvider
                  (updateMetadata m ns name version osName archName) key).Versions
              then (getProvider
                  (updateMetadata m ns name version osName archName) key).Versions
              else (getProvider
                  (updateMetadata m ns name version osName archName) key).Versions
                ++ [version] } := rfl
    rw [hkey2, hget1]
    have hplats : pdedup (v1.Platforms ++ [platform]) = v1.Platforms := by
      rw [pdedup_append_mem platform v1.Platforms hplat_mem]
      apply pdedup_eq_self
      rw [hv1def]
      exact pdedup_nodup _
    have hvers : (if version ∈ v1.Versions then v1.Versions
        else v1.Versions ++ [version]) = v1.Versions := if_pos hver_mem
    rw [hplats, hvers, hkey]
    have hrepack : ProviderInfo.mk ns name v1.Platforms v1.Versions = v1 := rfl
    rw [hrepack]
    exact setProvider_setProvider m key v1 v1
  · intro hv hp
    rw [hget1]
    refine ⟨?_, ?_, ?_⟩
    · rw [hv1def]
      simp only [if_pos hv]
    · intro x
      rw [hv1def]
      show x ∈ pdedup (info.Platforms ++ [platform]) ↔ x ∈ info.Platforms
      rw [mem_pdedup, List.mem_append]
      constructor
      · rintro (h | h)
        · exact h
        · rcases List.mem_singleton.mp h with h'
          exact h' ▸ hp
      · exact Or.inl
    · rw [hv1def]
      exact pdedup_nodup _

/-- A concrete one-entry journal used to witness the journal theorems. -/
def sampleJournal : List (String × ProviderInfo) :=
  [("acme/thing",
    { Namespace := "acme", Name := "thing",
      Platforms := ["linux_amd64"], Versions := ["1.0.0"] })]

/-- C7 witness: on a concrete journal already containing
`(1.0.0, linux_amd64)` for `acme/thing`, the already-present hypotheses are
discharged by evaluation and the theorem's conclusions are obtained. -/
theorem c7_updateMetadata_witness :
    (getProvider (updateMetadata sampleJournal "acme" "thing" "1.0.0"
        "linux" "amd64") ("acme" ++ "/" ++ "thing")).Versions =
      (getProvider sampleJournal ("acme" ++ "/" ++ "thing")).Versions ∧
    (∀ x, x ∈ (getProvider (updateMetadata sampleJournal "acme" "thing" "1.0.0"
        "linux" "amd64") ("acme" ++ "/" ++ "thing")).Platforms ↔
      x ∈ (getProvider sampleJournal ("acme" ++ "/" ++ "thing")).Platforms) ∧
    (getProvider (updateMetadata sampleJournal "acme" "thing" "1.0.0"
        "linux" "amd64") ("acme" ++ "/" ++ "thing")).Platforms.Nodup :=
  (c7_updateMetadata_idempotent sampleJournal "acme" "thing" "1.0.0"
    "linux" "amd64").2 (by decide) (by decide)

/-! ## Planner pre-skip — `shouldDownload`
(`internal/downloader/service.go`, lines 687–732)

The provider and platform filters are abstracted by the boolean results of
the `IsEnabled()` / `ShouldInclude(...)` calls the source makes; the journal
is the association list of the metadata section; `readDir` of the provider
directory is `Option (List FileEntry)` (`none` models a read error). -/

/-- One directory entry as seen by `os.ReadDir`. -/
structure FileEntry where
  name : String
  isDir : Bool
deriving DecidableEq, Repr

/-- The expected archive filename start,
`terraform-provider-<name>_<version>_<os>_<arch>` (`service.go:716`). -/
def expectedArchiveStart (name version osName archName : String) : String :=
  "terraform-provider-" ++ name ++ "_" ++ version ++ "_" ++ osName ++ "_" ++ archName

/-- The directory scan of `shouldDownload` (`service.go:717-723`): a
non-directory entry whose name starts with the expected archive prefix and
is neither a `.sig` file nor a `SHA256SUMS` file. -/
def archivePresent (name version osName archName : String)
    (files : List FileEntry) : Bool :=
  files.any (fun f =>
    !f.isDir
    && goHasPre f.name (expectedArchiveStart name version osName archName)
    && !(goHasSuf f.name ".sig")
    && !(goContains f.name "SHA256SUMS"))

/-- Model of `Service.shouldDownload` from `service.go:687`: provider filter,
then platform filter, then the journal lookup — a provider or version
missing from the journal short-circuits to `true` (download) without
scanning the directory; only when the journal lists the version is the
directory scanned for the archive. -/
def shouldDownload (pfEnabled pfInclude plfEnabled plfInclude : Bool)
    (metadata : List (String × ProviderInfo))
    (readDirResult : Option (List FileEntry))
    (ns name version osName archName : String) : Bool :=
  if pfEnabled && !pfInclude then false
  else if plfEnabled && !plfInclude then false
  else
    match metadata.find? (fun p => p.1 == ns ++ "/" ++ name) with
    | none => true
    | some p =>
      if version ∈ p.2.Versions then
        match readDirResult with
        | some files => !(archivePresent name version osName archName files)
        | none => true
      else true

/-- C2 counterexample: with an empty journal and the archive
`terraform-provider-thing_1.0.0_linux_amd64.zip` present in the directory,
`shouldDownload` still returns `true` (the job is enqueued), although the
directory scan finds the file — so presence on disk alone is not sufficient
to pre-skip; the journal's contents decide whether the disk is consulted. -/
theorem c2_counterexample :
    shouldDownload false true false true []
        (some [{ name := "terraform-provider-thing_1.0.0_linux_amd64.zip",
                 isDir := false }])
        "acme" "thing" "1.0.0" "linux" "amd64" = true ∧
      archivePresent "thing" "1.0.0" "linux" "amd64"
        [{ name := "terraform-provider-thing_1.0.0_linux_amd64.zip",
           isDir := false }] = true := by
  constructor
  · rfl
  · rfl

/-- C2 amended: for a combination that survives both filters and whose
directory read succeeds, the job is pre-skipped (`shouldDownload = false`)
if and only if the journal has an entry for the provider listing this
version AND the directory scan finds a matching archive (an entry starting
with `terraform-provider-<name>_<version>_<os>_<arch>` that is neither a
`.sig` nor a `SHA256SUMS` file).  Presence on disk alone is not sufficient:
the journal must also record the version. -/
theorem c2_amended_thm (pfEnabled pfInclude plfEnabled plfInclude : Bool)
    (metadata : List (String × ProviderInfo)) (files : List FileEntry)
    (ns name version osName archName : String)
    (hpf : pfEnabled = true → pfInclude = true)
    (hplf : plfEnabled = true → plfInclude = true) :
    shouldDownload pfEnabled pfInclude plfEnabled plfInclude metadata
        (some files) ns name version osName archName = false ↔
      ∃ p, metadata.find? (fun q => q.1 == ns ++ "/" ++ name) = some p ∧
        version ∈ p.2.Versions ∧
        archivePresent name version osName archName files = true := by
  have hc1 : (pfEnabled && !pfInclude) = false := by
    cases hpe : pfEnabled
    · rfl
    · rw [hpf hpe]; rfl
  have hc2 : (plfEnabled && !plfInclude) = false := by
    cases hpe : plfEnabled
    · rfl
    · rw [hplf hpe]; rfl
  unfold shouldDownload
  rw [if_neg (by rw [hc1]; exact Bool.false_ne_true),
    if_neg (by rw [hc2]; exact Bool.false_ne_true)]
  rcases hfind : metadata.find? (fun q => q.1 == ns ++ "/" ++ name) with _ | p
  · rw [hfind]
    constructor
    · intro h; cases h
    · rintro ⟨q, hq, _, _⟩
      cases hq
  · rw [hfind]
    by_cases hv : version ∈ p.2.Versions
    · simp only [if_pos hv]
      constructor
      · intro h
        refine ⟨p, rfl, hv, ?_⟩
        rcases hap : archivePresent name version osName archName files
        · rw [hap] at h; cases h
        · rfl
      · rintro ⟨q, hq, _, hap⟩
        rw [hap]
        rfl
    · simp only [if_neg hv]
      constructor
      · intro h; cases h
      · rintro ⟨q, hq, hqv, _⟩
        injection hq with hpq
        subst hpq
        exact absurd hqv hv

/-- C2 amended, witness: with the sample journal already recording
`1.0.0` for `acme/thing`, both filters passing, and the archive on disk,
the characterization applies and both sides of the equivalence hold. -/
theorem c2_amended_witness :
    shouldDownload true true false true sampleJournal
        (some [{ name := "terraform-provider-thing_1.0.0_linux_amd64.zip",
                 isDir := false }])
        "acme" "thing" "1.0.0" "linux" "amd64" = false ↔
      ∃ p, sampleJournal.find? (fun q => q.1 == "acme" ++ "/" ++ "thing") = some p ∧
        "1.0.0" ∈ p.2.Versions ∧
        archivePresent "thing" "1.0.0" "linux" "amd64"
          [{ name := "terraform-provider-thing_1.0.0_linux_amd64.zip",
             isDir := false }] = true :=
  c2_amended_thm true true false true sampleJournal
    [{ name := "terraform-provider-thing_1.0.0_linux_amd64.zip",
       isDir := false }]
    "acme" "thing" "1.0.0" "linux" "amd64" (fun _ => rfl)
    (fun h => absurd h Bool.false_ne_true)

/-! ## File materialization traces — atomic-write protocol
(`src/unnamed/part_004` `saveFile`, lines 179–224;
`internal/downloader/binaries/binaries.go` `downloadFileWithClient`,
lines 190–206; `internal/downloader/service.go` version-JSON fetch, lines
236–254, and `saveMetadata`, lines 873–889; `indexgen.GenerateIndexJSON`
output, `service.go` lines 986–997)

Each writer is embedded as the sequence of filesystem operations its
success path performs.  The atomic-write protocol requires a file to appear
under its final name only through a rename from `<final>.tmp`, never
through a direct `create` of the final name. -/

/-- A filesystem operation performed while materializing a file. -/
inductive FsOp where
  | mkdirAll (dir : String)
  | create (path : String)
  | writeAll (path : String)
  | close (path : String)
  | rename (src dst : String)
deriving DecidableEq, Repr

/-- Success-path trace of `RegistryClient.saveFile` (`part_004:179`):
make the parent directory, create `<dest>.tmp`, stream the body, close,
rename `<dest>.tmp` to `<dest>`. -/
def saveFileOps (dir destPath : String) : List FsOp :=
  [FsOp.mkdirAll dir,
   FsOp.create (destPath ++ ".tmp"),
   FsOp.writeAll (destPath ++ ".tmp"),
   FsOp.close (destPath ++ ".tmp"),
   FsOp.rename (destPath ++ ".tmp") destPath]

/-- Success-path trace of `binaries.downloadFileWithClient`
(`binaries.go:190`): `os.Create(destPath)` directly, stream, close. -/
def downloadFileWithClientOps (destPath : String) : List FsOp :=
  [FsOp.create destPath,
   FsOp.writeAll destPath,
   FsOp.close destPath]

/-- Success-path trace of the per-version metadata JSON fetch
(`service.go:243-247`): `os.MkdirAll` then `os.Create(versionJSONPath)`
directly, stream, close. -/
def versionJSONFetchOps (dir destPath : String) : List FsOp :=
  [FsOp.mkdirAll dir,
   FsOp.create destPath,
   FsOp.writeAll destPath,
   FsOp.close destPath]

/-- Success-path trace of the `index.json` write in
`indexgen.GenerateIndexJSON`: `os.Create(outPath)` directly, encode,
close. -/
def generateIndexJSONWriteOps (outPath : String) : List FsOp :=
  [FsOp.create outPath,
   FsOp.writeAll outPath,
   FsOp.close outPath]

/-- Success-path trace of `Service.saveMetadata` (`service.go:884`):
`os.WriteFile` opens the journal's final name directly. -/
def saveMetadataOps (metadataPath : String) : List FsOp :=
  [FsOp.create metadataPath,
   FsOp.writeAll metadataPath,
   FsOp.close metadataPath]

/-- The atomic-write protocol, as a predicate on a trace: the final path is
never opened directly by `create`, and it appears through a rename from
`<final>.tmp`. -/
def writesAtomically (ops : List FsOp) (p : String) : Bool :=
  (ops.all (fun op =>
    match op with
    | FsOp.create q => !(q == p)
    | _ => true))
  && (ops.any (fun op =>
    match op with
    | FsOp.rename src dst => src == p ++ ".tmp" && dst == p
    | _ => false))

theorem tmp_path_ne (s : String) : (s ++ ".tmp" == s) = false := by
  apply beq_eq_false_iff_ne.mpr
  intro h
  have hlen := congrArg String.length h
  rw [String.length_append] at hlen
  have h4 : (".tmp" : String).length = 4 := rfl
  rw [h4] at hlen
  omega

/-- C1 counterexample: the binaries subsystem materializes the tool archive
`<store>/consul/consul_1.21.3_linux_amd64.zip` by creating the final name
directly (`os.Create(destPath)`) with no temp file and no rename, so its
trace violates the atomic-write protocol. -/
theorem c1_counterexample :
    writesAtomically
      (downloadFileWithClientOps "store/consul/consul_1.21.3_linux_amd64.zip")
      "store/consul/consul_1.21.3_linux_amd64.zip" = false := by rfl

/-- C1 amended: only the provider-archive writer `saveFile` (used by
`RegistryClient.DownloadFile`) follows the temp-file-then-rename protocol;
the binaries subsystem's tool archives, the per-version metadata JSON, the
`index.json` documents, and the metadata journal are all created directly
under their final names. -/
theorem c1_amended_thm (dir destPath : String) :
    writesAtomically (saveFileOps dir destPath) destPath = true ∧
    writesAtomically (downloadFileWithClientOps destPath) destPath = false ∧
    writesAtomically (versionJSONFetchOps dir destPath) destPath = false ∧
    writesAtomically (generateIndexJSONWriteOps destPath) destPath = false ∧
    writesAtomically (saveMetadataOps destPath) destPath = false := by
  refine ⟨?_, ?_, ?_, ?_, ?_⟩
  · show writesAtomically (saveFileOps dir destPath) destPath = true
    unfold writesAtomically saveFileOps
    rw [show (List.all [FsOp.mkdirAll dir,
        FsOp.create (destPath ++ ".tmp"),
        FsOp.writeAll (destPath ++ ".tmp"),
        FsOp.close (destPath ++ ".tmp"),
        FsOp.rename (destPath ++ ".tmp") destPath] (fun op =>
          match op with
          | FsOp.create q => !(q == destPath)
          | _ => true)) = !(destPath ++ ".tmp" == destPath) from by
      simp [List.all_cons]]
    rw [tmp_path_ne destPath]
    simp [List.any_cons]
  · unfold writesAtomically downloadFileWithClientOps
    simp [List.all_cons, List.any_cons]
  · unfold writesAtomically versionJSONFetchOps
    simp [List.all_cons, List.any_cons]
  · unfold writesAtomically generateIndexJSONWriteOps
    simp [List.all_cons, List.any_cons]
  · unfold writesAtomically saveMetadataOps
    simp [List.all_cons, List.any_cons]

/-! ## Outcome collection loop — the 30-second watchdog
(`internal/downloader/service.go`, lines 301–339)

The source collects outcomes with `for i := 0; i < totalJobs; i++` around a
`select` that either receives one outcome from the buffered results channel
or fires a 30-second watchdog tick.  The model takes a schedule giving, for
each loop iteration, which `select` branch fires, and counts the outcomes
actually received (`resultsSent` in the source). -/

/-- Which branch of the collection `select` fires in one iteration. -/
inductive WaitEvent where
  | result
  | tick
deriving DecidableEq, Repr

/-- The collection loop of `downloadProviders` (`service.go:305-339`):
iterate `totalJobs` times; an iteration whose `select` receives an outcome
increments `resultsSent`; a watchdog tick only logs and the iteration
ends.  Returns the final `resultsSent`. -/
def collectLoop (sched : Nat → WaitEvent) : Nat → Nat → Nat
  | _, 0 => 0
  | i, Nat.succ n =>
    (match sched i with
     | WaitEvent.result => 1
     | WaitEvent.tick => 0) + collectLoop sched (i + 1) n

/-- Outcomes received over a whole collection phase of `totalJobs`
iterations. -/
def resultsReceived (sched : Nat → WaitEvent) (totalJobs : Nat) : Nat :=
  collectLoop sched 0 totalJobs

/-- C3, failing input: with `totalJobs = 1` and the single job's outcome
arriving only after the 30-second watchdog fires, the collection loop ends
after its one iteration having received 0 outcomes — the tick consumed the
iteration, so the orchestrator does not receive exactly `totalJobs`
outcomes (the source then logs `Mismatch: resultsSent != totalJobs`).  A
schedule in which every iteration receives an outcome is shown alongside
for contrast. -/
theorem c3_watchdog_drops_outcome :
    resultsReceived (fun _ => WaitEvent.tick) 1 = 0 ∧
      resultsReceived (fun _ => WaitEvent.result) 1 = 1 := by
  constructor
  · rfl
  · rfl

/-! ## Provider discovery pagination — `DiscoverAllProviders`
(`src/unnamed/part_004`, lines 37–85)

Upstream is modelled as `page : Nat → Option (List α)` mapping a request
offset to the page's item list, with `none` standing for a transport error
or non-200 status (both abort discovery in the source).  The loop itself
cannot be bounded by the source (an upstream that always returns 100 items
makes it run forever), so the model takes a fuel argument; every theorem
below holds for any fuel sufficient for one more request. -/

/-- URL of one page request, `GET /v1/providers?offset=<n>&limit=100`. -/
def providersURL (offset : Nat) : String :=
  "/v1/providers?offset=" ++ toString offset ++ "&limit=100"

/-- Model of the pagination loop of `RegistryClient.DiscoverAllProviders`
(`part_004:44-81`): request the page at `offset`; on error abort; on an
empty page stop (appending nothing); on a page shorter than the limit of
100 append it and stop; otherwise append it and continue at
`offset + 100`.  Returns the accumulated items (or `none` on error) and
the list of request URLs issued, in order. -/
def discoverLoop {α : Type} (page : Nat → Option (List α)) (offset : Nat) :
    Nat → Option (List α) × List String
  | 0 => (some [], [])
  | Nat.succ fuel =>
    match page offset with
    | none => (none, [providersURL offset])
    | some items =>
      if items.length = 0 then (some [], [providersURL offset])
      else if items.length < 100 then (some items, [providersURL offset])
      else
        let r := discoverLoop page (offset + 100) fuel
        (r.1.map (fun rest => items ++ rest), providersURL offset :: r.2)

/-- Model of `RegistryClient.DiscoverAllProviders`: start at offset 0. -/
def DiscoverAllProviders {α : Type} (page : Nat → Option (List α))
    (fuel : Nat) : Option (List α) × List String :=
  discoverLoop page 0 fuel

theorem discoverLoop_succ {α : Type} (page : Nat → Option (List α))
    (offset fuel : Nat) :
    discoverLoop page offset (fuel + 1) =
      match page offset with
      | none => (none, [providersURL offset])
      | some items =>
        if items.length = 0 then (some [], [providersURL offset])
        else if items.length < 100 then (some items, [providersURL offset])
        else
          ((discoverLoop page (offset + 100) fuel).1.map
              (fun rest => items ++ rest),
            providersURL offset :: (discoverLoop page (offset + 100) fuel).2) := rfl

/-- C8: pagination requests `/v1/providers?offset=<n>&limit=100` and (first
conjunct) stops exactly when a page returns fewer than 100 items (zero
included): if the page at offset 0 is short, the whole discovery issues
exactly that one request and returns that page's items; (second conjunct)
a page of exactly 100 items does not stop the loop — its items are
prepended, in upstream order, to whatever the continuation starting at
`offset + 100` returns, after the request at `offset`. -/
theorem c8_pagination {α : Type} (page : Nat → Option (List α))
    (items : List α) (offset fuel : Nat) :
    (page 0 = some items → items.length < 100 →
      DiscoverAllProviders page (fuel + 1) =
        (some items, [providersURL 0])) ∧
    (page offset = some items → items.length = 100 →
      discoverLoop page offset (fuel + 1) =
        ((discoverLoop page (offset + 100) fuel).1.map
            (fun rest => items ++ rest),
          providersURL offset :: (discoverLoop page (offset + 100) fuel).2)) := by
  constructor
  · intro hpage hshort
    unfold DiscoverAllProviders
    rw [discoverLoop_succ, hpage]
    by_cases h0 : items.length = 0
    · simp only [if_pos h0]
      rw [List.eq_nil_of_length_eq_zero h0]
    · simp only [if_neg h0, if_pos hshort]
  · intro hpage hfull
    rw [discoverLoop_succ, hpage]
    simp only [if_neg (show ¬ items.length = 0 from by omega),
      if_neg (show ¬ items.length < 100 from by omega)]

/-- C8 witness: a registry whose first page has 2 items (fewer than 100)
produces a single-page enumeration with exactly one request; a registry
whose first page has exactly 100 items issues the request at offset 0 and
continues at offset 100, concatenating in upstream order.  Both hypothesis
branches of the theorem are instantiated and the results evaluated. -/
theorem c8_pagination_witness :
    DiscoverAllProviders (fun _ => some ["a", "b"]) 5 =
      (some ["a", "b"], [providersURL 0]) ∧
    discoverLoop
        (fun off => if off = 0 then some (List.replicate 100 "p")
          else some ["x"]) 0 2 =
      ((discoverLoop
          (fun off => if off = 0 then some (List.replicate 100 "p")
            else some ["x"]) 100 1).1.map
          (fun rest => List.replicate 100 "p" ++ rest),
        providersURL 0 ::
          (discoverLoop
            (fun off => if off = 0 then some (List.replicate 100 "p")
              else some ["x"]) 100 1).2) := by
  constructor
  · exact (c8_pagination (fun _ => some ["a", "b"]) ["a", "b"] 0 4).1
      rfl (by decide)
  · exact (c8_pagination
      (fun off => if off = 0 then some (List.replicate 100 "p")
        else some ["x"]) (List.replicate 100 "p") 0 1).2
      rfl (by decide)

end TfMirror
